import Mathlib

/-!
Verification of the Mandelbrot renderer (src/cpu.rs, src/gpu.rs, src/main.rs).

Embedding conventions:
* `f32` arithmetic is modelled exactly over `ℚ` (all claims checked here are
  about the algebraic/structural behaviour of the code; the concrete inputs
  used in witnesses are exactly representable in `f32` and incur no rounding).
* `u32`/`usize` values are modelled as `ℕ`, with an explicit `% 2 ^ 32`
  at the places where a `u32` operation could wrap (casts and the
  `width * band_height` chunk-size product in `render`).
* A Rust `panic!`/`assert!` failure is modelled by `Option.none`; the
  model of `render` follows release-build semantics, in which the
  `bands.len() - 1` subtraction wraps for an empty buffer and the spawn
  loop body never runs.
* Parallel band rendering in `cpu.rs` writes disjoint slices produced by
  `chunks_mut` and joins all threads before returning; its functional
  result is the concatenation of the per-band results, which is how it is
  modelled here.
-/

namespace Mandelbrot

/-- `num::Complex<f32>`, with `f32` modelled exactly by `ℚ`. -/
structure Complexf where
  re : ℚ
  im : ℚ
deriving DecidableEq

/-- `Complex::<f32>::default()`, i.e. `0 + 0i`. -/
def complexDefault : Complexf := ⟨0, 0⟩

/-- `num::Complex` multiplication: `(a+bi)(c+di) = (ac - bd) + (ad + bc)i`. -/
def cmul (z w : Complexf) : Complexf :=
  ⟨z.re * w.re - z.im * w.im, z.re * w.im + z.im * w.re⟩

/-- `num::Complex` addition. -/
def cadd (z w : Complexf) : Complexf :=
  ⟨z.re + w.re, z.im + w.im⟩

/-- `Complex::norm_sqr`: `re*re + im*im`. -/
def norm_sqr (z : Complexf) : ℚ := z.re * z.re + z.im * z.im

/-- The loop body of `escape_time` (cpu.rs:23-28): at loop counter `i` with
current iterate `z` and `fuel` loop iterations remaining, test
`z.norm_sqr() >= 4.0` and either return `Some i` or update `z = z*z + c`. -/
def escapeLoop (c : Complexf) : Complexf → ℕ → ℕ → Option ℕ
  | _, _, 0 => none
  | z, i, fuel + 1 =>
    if 4 ≤ norm_sqr z then some i
    else escapeLoop c (cadd (cmul z z) c) (i + 1) fuel

/-- `escape_time` (cpu.rs:20-31): iterate `z ← z² + c` from `z = 0`,
`for i in 0..limit`, returning `Some i` at the first pre-step bailout test
`|z|² ≥ 4`, else `None`. -/
def escape_time (c : Complexf) (limit : ℕ) : Option ℕ :=
  escapeLoop c complexDefault 0 limit

/-- The orbit of `0` under `z ↦ z² + c`: the value of `z` entering loop
iteration `n` of `escape_time`. -/
def orbit (c : Complexf) : ℕ → Complexf
  | 0 => complexDefault
  | n + 1 => cadd (cmul (orbit c n) (orbit c n)) c

/-- `pixel_to_view` (cpu.rs:33-45): affine map from a `(column, row)` pixel to
the complex plane.  `pixel.1` is the column, `pixel.2` the row. -/
def pixel_to_view (pixel : ℕ × ℕ) (upper_left : Complexf)
    (view_resolution : ℚ × ℚ) (window_resolution : ℕ × ℕ) : Complexf :=
  ⟨upper_left.re + (pixel.1 : ℚ) * view_resolution.1 / (window_resolution.1 : ℚ),
   upper_left.im - (pixel.2 : ℚ) * view_resolution.2 / (window_resolution.2 : ℚ)⟩

/-- The mapper as the spec states it (§4.1):
`re = upper_left.re + pixel.col * view.width / resolution.width`,
`im = upper_left.im - pixel.row * view.height / resolution.height`. -/
def map_spec (pixel : ℕ × ℕ) (upper_left : Complexf)
    (view_width view_height : ℚ) (res_width res_height : ℕ) : Complexf :=
  ⟨upper_left.re + (pixel.1 : ℚ) * view_width / (res_width : ℚ),
   upper_left.im - (pixel.2 : ℚ) * view_height / (res_height : ℚ)⟩

/-- The packing of one escape result into a `u32` pixel (cpu.rs:88-96):
`None ↦ 0`; `Some count ↦ count << 16 | count << 8 | count`, with the
`usize → u32` cast and the `u32` shifts made explicit by `% 2 ^ 32`. -/
def pack_escape (result : Option ℕ) : ℕ :=
  match result with
  | none => 0
  | some count =>
    ((count % 2 ^ 32) <<< 16) % 2 ^ 32 |||
      ((count % 2 ^ 32) <<< 8) % 2 ^ 32 ||| count % 2 ^ 32

/-- C1 helper: `escapeLoop` run from `orbit c i` at counter `i` returns
`some k` exactly when `k` is the first index in `[i, i + fuel)` whose orbit
point passes the bailout test. -/
theorem escapeLoop_some_iff (c : Complexf) (fuel : ℕ) :
    ∀ (i k : ℕ),
      (escapeLoop c (orbit c i) i fuel = some k ↔
        (i ≤ k ∧ k < i + fuel ∧ 4 ≤ norm_sqr (orbit c k) ∧
          ∀ j, i ≤ j → j < k → norm_sqr (orbit c j) < 4)) := by
  induction fuel with
  | zero =>
    intro i k
    simp only [escapeLoop]
    constructor
    · intro h; exact absurd h (by simp)
    · rintro ⟨h1, h2, -⟩; omega
  | succ fuel ih =>
    intro i k
    rw [show escapeLoop c (orbit c i) i (fuel + 1) =
        if 4 ≤ norm_sqr (orbit c i) then some i
        else escapeLoop c (cadd (cmul (orbit c i) (orbit c i)) c) (i + 1) fuel
      from rfl]
    by_cases hbail : 4 ≤ norm_sqr (orbit c i)
    · rw [if_pos hbail]
      constructor
      · rintro h
        have hik : i = k := by simpa using h
        subst hik
        exact ⟨le_refl i, by omega, hbail, fun j h1 h2 => absurd (lt_of_le_of_lt h1 h2) (lt_irrefl i)⟩
      · rintro ⟨h1, h2, h3, h4⟩
        rcases Nat.eq_or_lt_of_le h1 with heq | hlt
        · simp [heq]
        · exact absurd hbail (not_le.mpr (h4 i (le_refl i) hlt))
    · rw [if_neg hbail]
      have horb : cadd (cmul (orbit c i) (orbit c i)) c = orbit c (i + 1) := rfl
      rw [horb, ih (i + 1) k]
      constructor
      · rintro ⟨h1, h2, h3, h4⟩
        refine ⟨by omega, by omega, h3, fun j hj1 hj2 => ?_⟩
        rcases Nat.eq_or_lt_of_le hj1 with heq | hlt
        · rw [← heq]; exact not_le.mp hbail
        · exact h4 j hlt hj2
      · rintro ⟨h1, h2, h3, h4⟩
        have hik : i ≠ k := by
          rintro rfl; exact hbail h3
        exact ⟨by omega, by omega, h3, fun j hj1 hj2 => h4 j (by omega) hj2⟩

/-- C1 helper: `escapeLoop` returns `none` exactly when no orbit point in the
remaining fuel window passes the bailout test. -/
theorem escapeLoop_none_iff (c : Complexf) (fuel : ℕ) :
    ∀ (i : ℕ),
      (escapeLoop c (orbit c i) i fuel = none ↔
        ∀ j, i ≤ j → j < i + fuel → norm_sqr (orbit c j) < 4) := by
  induction fuel with
  | zero =>
    intro i
    simp only [escapeLoop]
    constructor
    · intro _ j h1 h2; omega
    · intro _; trivial
  | succ fuel ih =>
    intro i
    rw [show escapeLoop c (orbit c i) i (fuel + 1) =
        if 4 ≤ norm_sqr (orbit c i) then some i
        else escapeLoop c (cadd (cmul (orbit c i) (orbit c i)) c) (i + 1) fuel
      from rfl]
    by_cases hbail : 4 ≤ norm_sqr (orbit c i)
    · rw [if_pos hbail]
      constructor
      · intro h; exact absurd h (by simp)
      · intro h; exact absurd hbail (not_le.mpr (h i (le_refl i) (by omega)))
    · rw [if_neg hbail]
      have horb : cadd (cmul (orbit c i) (orbit c i)) c = orbit c (i + 1) := rfl
      rw [horb, ih (i + 1)]
      constructor
      · intro h j hj1 hj2
        rcases Nat.eq_or_lt_of_le hj1 with heq | hlt
        · rw [← heq]; exact not_le.mp hbail
        · exact h j hlt (by omega)
      · intro h j hj1 hj2
        exact h j (by omega) (by omega)

/-- C1: `escape_time c limit` iterates `z ← z² + c` from `z = 0`, tests
`|z|² ≥ 4` before each step, and returns `some i` exactly for the first
bailout index `i` (with `0 ≤ i < limit`), or `none` when no bailout occurs
within `limit` iterations. -/
theorem escape_time_first_bailout (c : Complexf) (limit : ℕ) :
    (∀ i, escape_time c limit = some i ↔
      (i < limit ∧ 4 ≤ norm_sqr (orbit c i) ∧
        ∀ j, j < i → norm_sqr (orbit c j) < 4)) ∧
    (escape_time c limit = none ↔ ∀ j, j < limit → norm_sqr (orbit c j) < 4) := by
  constructor
  · intro i
    have h := escapeLoop_some_iff c limit 0 i
    rw [show orbit c 0 = complexDefault from rfl] at h
    rw [escape_time, h]
    constructor
    · rintro ⟨-, h2, h3, h4⟩
      exact ⟨by omega, h3, fun j hj => h4 j (Nat.zero_le j) hj⟩
    · rintro ⟨h1, h2, h3⟩
      exact ⟨Nat.zero_le i, by omega, h2, fun j _ hj => h3 j hj⟩
  · have h := escapeLoop_none_iff c limit 0
    rw [show orbit c 0 = complexDefault from rfl] at h
    rw [escape_time, h]
    constructor
    · intro h j hj; exact h j (Nat.zero_le j) (by omega)
    · intro h j _ hj; exact h j (by omega)

/-- C2: the pixel-to-complex mapper computes exactly the spec's formulas, and
mapping pixel `(0,0)` returns exactly `upper_left`. -/
theorem pixel_to_view_matches_spec (pixel : ℕ × ℕ) (upper_left : Complexf)
    (vw vh : ℚ) (ww wh : ℕ) :
    pixel_to_view pixel upper_left (vw, vh) (ww, wh) =
      map_spec pixel upper_left vw vh ww wh ∧
    pixel_to_view (0, 0) upper_left (vw, vh) (ww, wh) = upper_left := by
  constructor
  · rfl
  · cases upper_left
    simp [pixel_to_view]

/-- C4: a divergence at count `i ≤ 255` packs to `i<<16 | i<<8 | i`, a
bounded result packs to `0`, and the packed value of any count `i ≤ 255`
has its top 8 bits zero (is `< 2^24`). -/
theorem pack_escape_spec :
    (∀ i, i ≤ 255 → pack_escape (some i) = i <<< 16 ||| i <<< 8 ||| i) ∧
    pack_escape none = 0 ∧
    (∀ i, i ≤ 255 → pack_escape (some i) < 2 ^ 24) := by
  refine ⟨fun i hi => ?_, rfl, fun i hi => ?_⟩
  · have h32 : i % 2 ^ 32 = i := Nat.mod_eq_of_lt (by omega)
    have h16 : i <<< 16 % 2 ^ 32 = i <<< 16 := by
      rw [Nat.shiftLeft_eq]
      refine Nat.mod_eq_of_lt ?_
      calc i * 2 ^ 16 ≤ 255 * 2 ^ 16 := Nat.mul_le_mul_right _ hi
        _ < 2 ^ 32 := by norm_num
    have h8 : i <<< 8 % 2 ^ 32 = i <<< 8 := by
      rw [Nat.shiftLeft_eq]
      refine Nat.mod_eq_of_lt ?_
      calc i * 2 ^ 8 ≤ 255 * 2 ^ 8 := Nat.mul_le_mul_right _ hi
        _ < 2 ^ 32 := by norm_num
    simp only [pack_escape, h32, h16, h8]
  · have h32 : i % 2 ^ 32 = i := Nat.mod_eq_of_lt (by omega)
    have h16 : i <<< 16 % 2 ^ 32 = i <<< 16 := by
      rw [Nat.shiftLeft_eq]
      refine Nat.mod_eq_of_lt ?_
      calc i * 2 ^ 16 ≤ 255 * 2 ^ 16 := Nat.mul_le_mul_right _ hi
        _ < 2 ^ 32 := by norm_num
    have h8 : i <<< 8 % 2 ^ 32 = i <<< 8 := by
      rw [Nat.shiftLeft_eq]
      refine Nat.mod_eq_of_lt ?_
      calc i * 2 ^ 8 ≤ 255 * 2 ^ 8 := Nat.mul_le_mul_right _ hi
        _ < 2 ^ 32 := by norm_num
    simp only [pack_escape, h32, h16, h8]
    have b16 : i <<< 16 < 2 ^ 24 := by
      rw [Nat.shiftLeft_eq]
      calc i * 2 ^ 16 ≤ 255 * 2 ^ 16 := Nat.mul_le_mul_right _ hi
        _ < 2 ^ 24 := by norm_num
    have b8 : i <<< 8 < 2 ^ 24 := by
      rw [Nat.shiftLeft_eq]
      calc i * 2 ^ 8 ≤ 255 * 2 ^ 8 := Nat.mul_le_mul_right _ hi
        _ < 2 ^ 24 := by norm_num
    have bi : i < 2 ^ 24 := by omega
    exact Nat.bitwise_lt (Nat.bitwise_lt b16 b8) bi

/-- C4 witness at count 255. -/
theorem pack_escape_spec_witness :
    pack_escape (some 255) = 255 <<< 16 ||| 255 <<< 8 ||| 255 ∧
    pack_escape none = 0 ∧ pack_escape (some 255) < 2 ^ 24 :=
  ⟨pack_escape_spec.1 255 (by norm_num), pack_escape_spec.2.1,
    pack_escape_spec.2.2 255 (by norm_num)⟩

/-- C7 (as written, refuted): the claim says points with `|c| > 2` diverge at
iteration 0, but the first bailout test happens while `z = 0`, so
`escape_time ⟨3, 0⟩ 256` returns `some 1`, not `some 0`. -/
theorem escape_time_three_not_iteration_zero :
    escape_time ⟨3, 0⟩ 256 = some 1 ∧ escape_time ⟨3, 0⟩ 256 ≠ some 0 := by
  have e1 : escape_time (⟨3, 0⟩ : Complexf) 256 =
      if 4 ≤ norm_sqr complexDefault then some 0
      else escapeLoop ⟨3, 0⟩ (cadd (cmul complexDefault complexDefault) ⟨3, 0⟩) 1 255 := rfl
  have e2 : cadd (cmul complexDefault complexDefault) (⟨3, 0⟩ : Complexf) = ⟨3, 0⟩ := by
    simp [cadd, cmul, complexDefault]
  have e3 : escapeLoop (⟨3, 0⟩ : Complexf) ⟨3, 0⟩ 1 255 =
      if 4 ≤ norm_sqr ⟨3, 0⟩ then some 1
      else escapeLoop ⟨3, 0⟩ (cadd (cmul ⟨3, 0⟩ ⟨3, 0⟩) ⟨3, 0⟩) 2 254 := rfl
  have h : escape_time (⟨3, 0⟩ : Complexf) 256 = some 1 := by
    rw [e1, if_neg (by norm_num [norm_sqr, complexDefault]), e2, e3,
      if_pos (by norm_num [norm_sqr])]
  exact ⟨h, by rw [h]; simp⟩

/-- C7 (amended): for every `c` with `|c|² > 4` (`|c| > 2`) and `limit ≥ 2`,
`escape_time c limit` returns divergence at iteration 1 (in particular a
small index `≤ 1`). -/
theorem escape_time_outside_radius (c : Complexf) (limit : ℕ)
    (hc : 4 < norm_sqr c) (hlimit : 2 ≤ limit) :
    escape_time c limit = some 1 := by
  obtain ⟨fuel, rfl⟩ : ∃ fuel, limit = fuel + 2 := ⟨limit - 2, by omega⟩
  rw [escape_time]
  rw [show fuel + 2 = (fuel + 1) + 1 from rfl, escapeLoop]
  rw [if_neg (by norm_num [norm_sqr, complexDefault])]
  rw [show cadd (cmul complexDefault complexDefault) c = c by
    cases c; simp [cadd, cmul, complexDefault]]
  rw [escapeLoop]
  rw [if_pos (le_of_lt hc)]

/-- C7 witness: `c = 3 + 0i`, `limit = 256`. -/
theorem escape_time_outside_radius_witness :
    4 < norm_sqr ⟨3, 0⟩ ∧ 2 ≤ 256 ∧ escape_time ⟨3, 0⟩ 256 = some 1 :=
  ⟨by norm_num [norm_sqr], by norm_num,
    escape_time_outside_radius ⟨3, 0⟩ 256 (by norm_num [norm_sqr]) (by norm_num)⟩

/-- `slice::chunks_mut(n)` (cpu.rs:62-64): consecutive chunks of `n` elements,
the last possibly shorter.  Rust panics for `n = 0`; the model returns `[]`
there (the renderer only reaches it with `n > 0` in the cases the theorems
cover). -/
def chunksList {α : Type} (n : ℕ) (l : List α) : List (List α) :=
  if h : n = 0 ∨ l.length = 0 then [] else l.take n :: chunksList n (l.drop n)
termination_by l.length
decreasing_by
  simp only [List.length_drop]
  have hn : n ≠ 0 := fun h0 => h (Or.inl h0)
  have hl : l.length ≠ 0 := fun h0 => h (Or.inr h0)
  omega

theorem chunksList_nil {α : Type} (n : ℕ) : chunksList n ([] : List α) = [] := by
  rw [chunksList]
  simp

theorem chunksList_cons {α : Type} (n : ℕ) (l : List α) (hn : n ≠ 0) (hl : l ≠ []) :
    chunksList n l = l.take n :: chunksList n (l.drop n) := by
  rw [chunksList]
  rw [dif_neg]
  simp only [not_or]
  exact ⟨hn, fun h0 => hl (List.length_eq_zero.mp h0)⟩

/-- The chunks of `chunks_mut` reassemble the original buffer: every element
is covered by exactly one chunk, in order, with no gaps and no overlaps. -/
theorem chunksList_flatten {α : Type} (n : ℕ) (hn : 0 < n) (l : List α) :
    (chunksList n l).flatten = l := by
  by_cases hl : l = []
  · subst hl
    rw [chunksList_nil]
    rfl
  · rw [chunksList_cons n l (by omega) hl, List.flatten_cons,
      chunksList_flatten n hn (l.drop n), List.take_append_drop]
termination_by l.length
decreasing_by
  simp only [List.length_drop]
  have : 0 < l.length := List.length_pos.mpr hl
  omega

/-- Every chunk of `chunks_mut` except possibly the last has exactly `n`
elements. -/
theorem chunksList_getD_length {α : Type} (n : ℕ) (hn : 0 < n) (l : List α) (i : ℕ)
    (h : i + 1 < (chunksList n l).length) : ((chunksList n l).getD i []).length = n := by
  by_cases hl : l = []
  · subst hl
    rw [chunksList_nil] at h
    simp at h
  · rw [chunksList_cons n l (by omega) hl] at h ⊢
    cases i with
    | zero =>
      simp only [List.getD_cons_zero]
      simp only [List.length_cons] at h
      have hrest : chunksList n (l.drop n) ≠ [] := by
        intro h0
        rw [h0] at h
        simp at h
      have hdrop : l.drop n ≠ [] := by
        intro h0
        rw [h0, chunksList_nil] at hrest
        exact hrest rfl
      have hlen : n < l.length := by
        have := List.length_pos.mpr hdrop
        rw [List.length_drop] at this
        omega
      rw [List.length_take]
      omega
    | succ j =>
      simp only [List.getD_cons_succ]
      simp only [List.length_cons] at h
      exact chunksList_getD_length n hn (l.drop n) j (by omega)
termination_by l.length
decreasing_by
  simp only [List.length_drop]
  have : 0 < l.length := List.length_pos.mpr hl
  omega

/-- No chunk of `chunks_mut` is empty. -/
theorem chunksList_mem_ne_nil {α : Type} (n : ℕ) (hn : 0 < n) (l : List α)
    (band : List α) (hmem : band ∈ chunksList n l) : band ≠ [] := by
  by_cases hl : l = []
  · subst hl
    rw [chunksList_nil] at hmem
    simp at hmem
  · rw [chunksList_cons n l (by omega) hl] at hmem
    rcases List.mem_cons.mp hmem with heq | hmem2
    · subst heq
      intro hcontra
      have hlen : (l.take n).length = 0 := by rw [hcontra]; rfl
      rw [List.length_take] at hlen
      have : 0 < l.length := List.length_pos.mpr hl
      omega
    · exact chunksList_mem_ne_nil n hn (l.drop n) band hmem2
termination_by l.length
decreasing_by
  simp only [List.length_drop]
  have : 0 < l.length := List.length_pos.mpr hl
  omega

/-- `render_chunk` (cpu.rs:66-99) as a function from the band's previous
contents to its new contents: the rows `start_row ..< start_row + height`
(with `start_row = band_height * band_i` and `height = band.len / width`)
are written row-major with packed escape counts; elements at index
`≥ height * width` (possible only when the band length is not a multiple of
the width) are never written and keep their old value. -/
def render_chunk (band : List ℕ) (band_i band_height : ℕ) (upper_left : Complexf)
    (view_resolution : ℚ × ℚ) (window_resolution : ℕ × ℕ) : List ℕ :=
  let start_row := band_height * band_i
  let height := band.length / window_resolution.1
  ((List.range height).map fun r =>
    (List.range window_resolution.1).map fun column =>
      pack_escape (escape_time
        (pixel_to_view (column, start_row + r) upper_left view_resolution window_resolution)
        256)).flatten ++ band.drop (height * window_resolution.1)

/-- cpu.rs:55-58: the worker count is the detected `available_parallelism`,
falling back to 4 when detection fails. -/
def threadCount (detected : Option ℕ) : ℕ :=
  match detected with
  | some parallelism => parallelism
  | none => 4

/-- cpu.rs:59: `band_height = max(window_resolution.1 / thread_count as u32, 50)`,
with the `usize → u32` cast written as `% 2 ^ 32`. -/
def bandHeight (height thread_count : ℕ) : ℕ :=
  max (height / (thread_count % 2 ^ 32)) 50

/-- `render` (cpu.rs:47-130).  The `assert!` on the buffer length is modelled
by `Option` (`none` is the panic).  The scoped worker threads each fill one
chunk of the `chunks_mut` partition and all are joined before the call
returns, so the functional result is the concatenation of the per-band
`render_chunk` results.  The `u32` product `window_resolution.0 * band_height`
carries its wrap-around explicitly.  The unconditional `chunks_mut(0)` panic
(reachable only at width 0, where the model's `chunksList` yields `[]`
instead) is outside the model: every theorem below assumes a positive
width. -/
def render (pixels : List ℕ) (upper_left : Complexf) (view_resolution : ℚ × ℚ)
    (window_resolution : ℕ × ℕ) (detected : Option ℕ) : Option (List ℕ) :=
  if pixels.length = window_resolution.1 * window_resolution.2 then
    let band_height := bandHeight window_resolution.2 (threadCount detected)
    let bands := chunksList ((window_resolution.1 * band_height) % 2 ^ 32) pixels
    some ((bands.enum.map fun p =>
      render_chunk p.2 p.1 band_height upper_left view_resolution window_resolution).flatten)
  else none

/-- The sequential per-pixel renderer the spec describes: the pixel at index
`row * width + col` (`row = j / width`, `col = j % width`) holds the packed
escape count of its mapped complex point, with `limit = 256`. -/
def renderSpec (upper_left : Complexf) (view_resolution : ℚ × ℚ)
    (width height : ℕ) : List ℕ :=
  (List.range (width * height)).map fun j =>
    pack_escape (escape_time
      (pixel_to_view (j % width, j / width) upper_left view_resolution (width, height)) 256)

/-- Row-major flattening: the concatenation of `h` rows of `W` entries is the
map over all `h * W` linear indices. -/
theorem range_rows_flatten (W : ℕ) (f : ℕ → ℕ → ℕ) (h : ℕ) :
    ((List.range h).map fun r => (List.range W).map fun c => f r c).flatten
      = (List.range (h * W)).map fun j => f (j / W) (j % W) := by
  induction h with
  | zero => simp
  | succ h ih =>
    rw [List.range_succ, List.map_append, List.flatten_append, ih]
    have hmul : (h + 1) * W = h * W + W := by ring
    rw [hmul, List.range_add, List.map_append]
    congr 1
    simp only [List.map_cons, List.map_nil, List.flatten_cons, List.flatten_nil,
      List.append_nil, List.map_map]
    refine List.map_congr_left fun i hi => ?_
    have hiW : i < W := List.mem_range.mp hi
    have h1 : (h * W + i) / W = h := by
      rw [Nat.mul_comm h W, Nat.mul_add_div (by omega), Nat.div_eq_of_lt hiW, Nat.add_zero]
    have h2 : (h * W + i) % W = i := by
      rw [Nat.mul_comm h W, Nat.mul_add_mod, Nat.mod_eq_of_lt hiW]
    simp only [Function.comp_apply, h1, h2]

/-- A band whose length is a multiple of the width is filled entirely:
`render_chunk` is the map over the band's linear indices, with global row
`band_height * band_i + j / W`. -/
theorem render_chunk_eq (band : List ℕ) (band_i bh : ℕ) (ul : Complexf) (vr : ℚ × ℚ)
    (W H : ℕ) (hW : 0 < W) (hdvd : W ∣ band.length) :
    render_chunk band band_i bh ul vr (W, H)
      = (List.range band.length).map fun j =>
          pack_escape (escape_time
            (pixel_to_view (j % W, bh * band_i + j / W) ul vr (W, H)) 256) := by
  obtain ⟨height, hh⟩ := hdvd
  simp only [render_chunk]
  have hdiv : band.length / W = height := by rw [hh, Nat.mul_div_cancel_left height hW]
  rw [hdiv]
  have hdrop : band.drop (height * W) = [] :=
    List.drop_eq_nil_of_le (by rw [hh, Nat.mul_comm])
  rw [hdrop, List.append_nil]
  rw [range_rows_flatten W (fun r c =>
    pack_escape (escape_time (pixel_to_view (c, bh * band_i + r) ul vr (W, H)) 256)) height]
  rw [show height * W = band.length by rw [hh, Nat.mul_comm]]

/-- The flattened result of rendering all bands of the `chunks_mut`
partition, with band indices starting at `i`, is the per-pixel map over the
whole slice (fuel `k` bounds the number of chunks). -/
theorem chunks_render_flatten (W bh : ℕ) (hW : 0 < W) (ul : Complexf) (vr : ℚ × ℚ)
    (H : ℕ) (k : ℕ) :
    ∀ (l : List ℕ) (i : ℕ), l.length ≤ k * (W * bh) → W ∣ l.length →
      ((List.enumFrom i (chunksList (W * bh) l)).map fun p =>
          render_chunk p.2 p.1 bh ul vr (W, H)).flatten
        = (List.range l.length).map fun j =>
            pack_escape (escape_time
              (pixel_to_view (j % W, bh * i + j / W) ul vr (W, H)) 256) := by
  induction k with
  | zero =>
    intro l i hlen _
    have hl : l = [] := List.length_eq_zero.mp (by omega)
    subst hl
    simp [chunksList_nil]
  | succ k ih =>
    intro l i hlen hdvd
    by_cases hl : l = []
    · subst hl
      simp [chunksList_nil]
    · have hcs : 0 < W * bh := by
        rcases Nat.eq_zero_or_pos (W * bh) with h0 | hpos
        · rw [h0, Nat.mul_zero] at hlen
          exact absurd (List.length_eq_zero.mp (by omega)) hl
        · exact hpos
      rw [chunksList_cons _ _ (by omega) hl]
      rw [show List.enumFrom i (l.take (W * bh) :: chunksList (W * bh) (l.drop (W * bh)))
          = (i, l.take (W * bh)) ::
            List.enumFrom (i + 1) (chunksList (W * bh) (l.drop (W * bh))) from rfl]
      rw [List.map_cons, List.flatten_cons]
      have hdvd_take : W ∣ (l.take (W * bh)).length := by
        rw [List.length_take]
        rcases Nat.le_total l.length (W * bh) with hle | hle
        · rw [Nat.min_eq_right hle]
          exact hdvd
        · rw [Nat.min_eq_left hle]
          exact ⟨bh, rfl⟩
      rw [render_chunk_eq _ _ _ _ _ _ _ hW hdvd_take]
      rcases Nat.le_total l.length (W * bh) with hle | hle
      · have hdropnil : l.drop (W * bh) = [] := List.drop_eq_nil_of_le hle
        rw [hdropnil, chunksList_nil]
        rw [show List.enumFrom (i + 1) ([] : List (List ℕ)) = [] from rfl]
        rw [List.map_nil, List.flatten_nil, List.append_nil]
        rw [List.take_of_length_le hle]
      · have hdvd_drop : W ∣ (l.drop (W * bh)).length := by
          rw [List.length_drop]
          exact Nat.dvd_sub' hdvd ⟨bh, rfl⟩
        have hexp : (k + 1) * (W * bh) = k * (W * bh) + W * bh := by ring
        have hlen_drop : (l.drop (W * bh)).length ≤ k * (W * bh) := by
          rw [List.length_drop]
          omega
        rw [ih (l.drop (W * bh)) (i + 1) hlen_drop hdvd_drop]
        have htake : (l.take (W * bh)).length = W * bh := by
          rw [List.length_take, Nat.min_eq_left hle]
        rw [htake, List.length_drop]
        have hrange : List.range l.length
            = List.range (W * bh) ++ (List.range (l.length - W * bh)).map (W * bh + ·) := by
          rw [← List.range_add]
          congr 1
          omega
        rw [hrange, List.map_append, List.map_map]
        congr 1
        refine (List.map_congr_left fun j _ => ?_).symm
        have h1 : (W * bh + j) / W = bh + j / W := Nat.mul_add_div hW bh j
        have h2 : (W * bh + j) % W = j % W := Nat.mul_add_mod W bh j
        simp only [Function.comp_apply, h1, h2]
        have h3 : bh * i + (bh + j / W) = bh * (i + 1) + j / W := by ring
        rw [h3]

/-- C3: under the length precondition the banded CPU renderer produces
exactly the sequential per-pixel rendering (`renderSpec`), for every valid
detected parallelism, hence its output is identical for any two thread
counts; and the sequential rendering has
`pack (escape_time (pixel_to_view (col, row)) 256)` at index
`row * width + col`. -/
theorem render_eq_renderSpec (pixels : List ℕ) (ul : Complexf) (vr : ℚ × ℚ)
    (W H : ℕ) (d d' : Option ℕ)
    (hlen : pixels.length = W * H) (hW : 0 < W)
    (hd : 0 < threadCount d % 2 ^ 32) (hd' : 0 < threadCount d' % 2 ^ 32)
    (hov : W * max H 50 < 2 ^ 32) :
    render pixels ul vr (W, H) d = some (renderSpec ul vr W H) ∧
    render pixels ul vr (W, H) d = render pixels ul vr (W, H) d' ∧
    ∀ row col, row < H → col < W →
      (renderSpec ul vr W H).getD (row * W + col) 0
        = pack_escape (escape_time (pixel_to_view (col, row) ul vr (W, H)) 256) := by
  have main : ∀ e : Option ℕ, 0 < threadCount e % 2 ^ 32 →
      render pixels ul vr (W, H) e = some (renderSpec ul vr W H) := by
    intro e he
    have hble : bandHeight H (threadCount e) ≤ max H 50 := by
      have hdle : H / (threadCount e % 2 ^ 32) ≤ H := Nat.div_le_self _ _
      simp only [bandHeight]
      omega
    have hbpos : 0 < bandHeight H (threadCount e) := by
      simp only [bandHeight]
      omega
    have hcs_eq : W * bandHeight H (threadCount e) % 2 ^ 32
        = W * bandHeight H (threadCount e) :=
      Nat.mod_eq_of_lt (lt_of_le_of_lt (Nat.mul_le_mul_left W hble) hov)
    simp only [render]
    rw [if_pos hlen]
    rw [hcs_eq]
    congr 1
    rw [show (List.enum (chunksList (W * bandHeight H (threadCount e)) pixels))
        = List.enumFrom 0 (chunksList (W * bandHeight H (threadCount e)) pixels) from rfl]
    rw [chunks_render_flatten W (bandHeight H (threadCount e)) hW ul vr H pixels.length
      pixels 0 (Nat.le_mul_of_pos_right _ (Nat.mul_pos hW hbpos)) ⟨H, hlen⟩]
    simp only [Nat.mul_zero, Nat.zero_add]
    rw [hlen]
    rfl
  refine ⟨main d hd, (main d hd).trans (main d' hd').symm, ?_⟩
  intro row col hrow hcol
  have hidx : row * W + col < W * H := by
    have h1 : (row + 1) * W ≤ H * W := Nat.mul_le_mul_right W hrow
    have h2 : (row + 1) * W = row * W + W := by ring
    have h3 : H * W = W * H := Nat.mul_comm H W
    omega
  simp only [renderSpec]
  rw [List.getD_eq_getElem?_getD, List.getElem?_map]
  rw [List.getElem?_range hidx]
  simp only [Option.map_some', Option.getD_some]
  have h1 : (row * W + col) % W = col := by
    rw [Nat.mul_comm row W, Nat.mul_add_mod, Nat.mod_eq_of_lt hcol]
  have h2 : (row * W + col) / W = row := by
    rw [Nat.mul_comm row W, Nat.mul_add_div hW, Nat.div_eq_of_lt hcol, Nat.add_zero]
  rw [h1, h2]

/-- C3 witness: a 1×1 image, detected parallelism 8 versus the fallback. -/
theorem render_eq_renderSpec_witness :
    ([0].length = 1 * 1 ∧ 0 < 1 ∧ 0 < threadCount (some 8) % 2 ^ 32 ∧
        0 < threadCount none % 2 ^ 32 ∧ 1 * max 1 50 < 2 ^ 32) ∧
      (render [0] complexDefault (1, 1) (1, 1) (some 8)
          = some (renderSpec complexDefault (1, 1) 1 1) ∧
        render [0] complexDefault (1, 1) (1, 1) (some 8)
          = render [0] complexDefault (1, 1) (1, 1) none ∧
        (renderSpec complexDefault (1, 1) 1 1).getD (0 * 1 + 0) 0
          = pack_escape (escape_time
              (pixel_to_view (0, 0) complexDefault (1, 1) (1, 1)) 256)) := by
  have h := render_eq_renderSpec [0] complexDefault (1, 1) 1 1 (some 8) none rfl (by norm_num)
    (by norm_num [threadCount]) (by norm_num [threadCount]) (by norm_num)
  exact ⟨⟨rfl, by norm_num, by norm_num [threadCount], by norm_num [threadCount], by norm_num⟩,
    h.1, h.2.1, h.2.2 0 0 (by norm_num) (by norm_num)⟩

/-- C5: with positive resolution and the length precondition, the renderer's
band partition uses `band_height = max(height / T, 50)` rows per band with
`T` the detected parallelism falling back to 4, every band except possibly
the last has exactly `width * band_height` elements (`band_height` full
rows), no band is empty, and the bands reassemble the buffer exactly — every
pixel is covered exactly once, no gaps, no overlaps. -/
theorem render_band_partition (pixels : List ℕ) (W H : ℕ) (d : Option ℕ)
    (hlen : pixels.length = W * H) (hW : 0 < W) (hH : 0 < H)
    (hd : 0 < threadCount d % 2 ^ 32) (hov : W * max H 50 < 2 ^ 32) :
    threadCount none = 4 ∧
    bandHeight H (threadCount d) = max (H / (threadCount d % 2 ^ 32)) 50 ∧
    (chunksList (W * bandHeight H (threadCount d) % 2 ^ 32) pixels).flatten = pixels ∧
    (∀ i, i + 1 < (chunksList (W * bandHeight H (threadCount d) % 2 ^ 32) pixels).length →
      ((chunksList (W * bandHeight H (threadCount d) % 2 ^ 32) pixels).getD i []).length
        = W * bandHeight H (threadCount d)) ∧
    ∀ band ∈ chunksList (W * bandHeight H (threadCount d) % 2 ^ 32) pixels, band ≠ [] := by
  have hble : bandHeight H (threadCount d) ≤ max H 50 := by
    have hdle : H / (threadCount d % 2 ^ 32) ≤ H := Nat.div_le_self _ _
    simp only [bandHeight]
    omega
  have hbpos : 0 < bandHeight H (threadCount d) := by
    simp only [bandHeight]
    omega
  have hcs_eq : W * bandHeight H (threadCount d) % 2 ^ 32
      = W * bandHeight H (threadCount d) :=
    Nat.mod_eq_of_lt (lt_of_le_of_lt (Nat.mul_le_mul_left W hble) hov)
  have hcs : 0 < W * bandHeight H (threadCount d) := Nat.mul_pos hW hbpos
  rw [hcs_eq]
  exact ⟨rfl, rfl, chunksList_flatten _ hcs pixels,
    fun i hi => chunksList_getD_length _ hcs pixels i hi,
    fun band hmem => chunksList_mem_ne_nil _ hcs pixels band hmem⟩

/-- C5 witness: a 2×3 image with detection failed (fallback `T = 4`). -/
theorem render_band_partition_witness :
    ([0, 0, 0, 0, 0, 0].length = 2 * 3 ∧ 0 < 2 ∧ 0 < 3 ∧
        0 < threadCount none % 2 ^ 32 ∧ 2 * max 3 50 < 2 ^ 32) ∧
      threadCount none = 4 ∧
      bandHeight 3 (threadCount none) = max (3 / (threadCount none % 2 ^ 32)) 50 ∧
      (chunksList (2 * bandHeight 3 (threadCount none) % 2 ^ 32)
          [0, 0, 0, 0, 0, 0]).flatten = [0, 0, 0, 0, 0, 0] := by
  have h := render_band_partition [0, 0, 0, 0, 0, 0] 2 3 none rfl (by norm_num) (by norm_num)
    (by norm_num [threadCount]) (by norm_num)
  exact ⟨⟨rfl, by norm_num, by norm_num, by norm_num [threadCount], by norm_num⟩,
    h.1, h.2.1, h.2.2.1⟩

/-- C6: under the spec's Resolution invariant (positive width and height),
a valid worker count and no chunk-size wrap — the domain on which the model
is faithful (at width 0 the program would panic inside `chunks_mut(0)`, a
path outside the model) — the CPU renderer checks its precondition
`pixels.length = width * height`: on violation it fails loudly (the
modelled `assert!` panic, `none`), never silently truncating or
overflowing, and under the precondition the assertion-failure branch is
unreachable and the renderer proceeds normally, returning a completed
buffer. -/
theorem render_checks_precondition (pixels : List ℕ) (ul : Complexf) (vr : ℚ × ℚ)
    (W H : ℕ) (d : Option ℕ) (hW : 0 < W) (hH : 0 < H)
    (hd : 0 < threadCount d % 2 ^ 32) (hov : W * max H 50 < 2 ^ 32) :
    (pixels.length ≠ W * H → render pixels ul vr (W, H) d = none) ∧
    (pixels.length = W * H → (render pixels ul vr (W, H) d).isSome) := by
  constructor
  · intro h
    simp only [render]
    rw [if_neg h]
  · intro h
    simp only [render]
    rw [if_pos h]
    rfl

/-- C6 witness: a 1×1 image; the matching buffer `[0]` renders, the
mismatched buffer `[0, 0]` hits the modelled assertion panic. -/
theorem render_checks_precondition_witness :
    (0 < 1 ∧ 0 < 1 ∧ 0 < threadCount (some 8) % 2 ^ 32 ∧ 1 * max 1 50 < 2 ^ 32) ∧
    (render [0] complexDefault (1, 1) (1, 1) (some 8)).isSome ∧
    render [0, 0] complexDefault (1, 1) (1, 1) (some 8) = none := by
  have h1 := render_checks_precondition [0] complexDefault (1, 1) 1 1 (some 8)
    (by norm_num) (by norm_num) (by norm_num [threadCount]) (by norm_num)
  have h2 := render_checks_precondition [0, 0] complexDefault (1, 1) 1 1 (some 8)
    (by norm_num) (by norm_num) (by norm_num [threadCount]) (by norm_num)
  exact ⟨⟨by norm_num, by norm_num, by norm_num [threadCount], by norm_num⟩,
    h1.2 rfl, h2.1 (by norm_num)⟩

/-- `wgpu::BufferAsyncError`: the device-side error delivered to a buffer
mapping that fails. -/
inductive BufferAsyncError : Type
  | deviceError : BufferAsyncError
deriving DecidableEq

/-- gpu.rs:271-276, the success branch of the readback: repack the RGBA
texture bytes into `0RGB` u32 pixels by explicit shift-and-or of the
individual bytes, `buffer[i] = view[4i] << 16 | view[4i+1] << 8 | view[4i+2]`
(the staging buffer holds `4 * buffer.length` bytes by construction,
gpu.rs:86-91, so all three indices are in range). -/
def repack_rgba (buffer : List ℕ) (view : List ℕ) : List ℕ :=
  (List.range buffer.length).map fun buffer_index =>
    let view_index := buffer_index * 4
    view.getD view_index 0 <<< 16 ||| view.getD (view_index + 1) 0 <<< 8 |||
      view.getD (view_index + 2) 0

/-- gpu.rs:251-281: the readback tail of `Wgpu::render`, from the point where
the wait loop has delivered the mapping result.  On `Ok` the destination
buffer is overwritten from the mapped texture bytes; on `Err` the fault is
reported (`eprintln`) and the function returns.  Result: the final buffer
contents paired with the reported fault, if any. -/
def gpuReadback (buffer : List ℕ) (view : List ℕ)
    (mapping : Except BufferAsyncError Unit) : List ℕ × Option BufferAsyncError :=
  match mapping with
  | Except.ok _ => (repack_rgba buffer view, none)
  | Except.error e => (buffer, some e)

/-- Modelled from the spec: the `map_async` completion signal.  The spec
(§4.4, §9) states that the callback fires at some device-determined time and
that a bare poll gives no guarantee the callback has fired; the
mutex-protected flag (gpu.rs:227-236) holds the result exactly when the
callback has already run.  `t` is the callback's firing time, `n` the host's
observation time. -/
def mappingFlag (t n : ℕ) (result : Except BufferAsyncError Unit) :
    Option (Except BufferAsyncError Unit) :=
  if t ≤ n then some result else none

/-- gpu.rs:240-244: the host's wait loop
`while result_lock.is_none() { result_lock = condvar.wait(result_lock) }`,
re-observing the flag at successive wakeups starting from observation time
`n`, then reading the flag's value. -/
def condvarWaitLoop (t n : ℕ) (result : Except BufferAsyncError Unit) :
    Option (Except BufferAsyncError Unit) :=
  if h : (mappingFlag t n result).isNone then condvarWaitLoop t (n + 1) result
  else mappingFlag t n result
termination_by t - n
decreasing_by
  simp only [mappingFlag] at h
  split at h
  · exact absurd h (by simp)
  · omega

/-- main.rs:310-320: the historical GPU redraw path calls `map_async` with an
empty callback, performs one `device.poll`, and then reads the mapped range
unconditionally; the only completion observation available to it is the one
at poll-return time `p`, with no wait on the signal. -/
def barePollObservation (t p : ℕ) (result : Except BufferAsyncError Unit) :
    Option (Except BufferAsyncError Unit) :=
  mappingFlag t p result

/-- The gpu.rs wait loop terminates and always returns the signalled result,
for every callback firing time. -/
theorem condvarWaitLoop_signalled (t n : ℕ) (r : Except BufferAsyncError Unit) :
    condvarWaitLoop t n r = some r := by
  rw [condvarWaitLoop]
  by_cases h : (mappingFlag t n r).isNone
  · rw [dif_pos h]
    exact condvarWaitLoop_signalled t (n + 1) r
  · rw [dif_neg h]
    simp only [mappingFlag] at h ⊢
    split
    next hc => rfl
    next hc =>
      refine absurd ?_ h
      rw [if_neg hc]
      rfl
termination_by t - n
decreasing_by
  simp only [mappingFlag] at h
  split at h
  · exact absurd h (by simp)
  · omega

/-- C8: the `Wgpu::render` path (gpu.rs) blocks on the condition-variable
completion signal and only ever reads a signalled mapping result, for every
callback schedule; the historical main.rs GPU path instead reads after a
bare poll — at the schedule where the callback fires just after the poll
returns (`t = 1`, `p = 0`) its only available observation of the completion
flag is unsignalled, yet it proceeds to read the buffer, contradicting the
claim that every GPU render call blocks on the explicit signal before
reading. -/
theorem gpu_wait_loop_vs_bare_poll :
    (∀ t n r, condvarWaitLoop t n r = some r) ∧
    barePollObservation 1 0 (Except.ok ()) = none :=
  ⟨fun t n r => condvarWaitLoop_signalled t n r, rfl⟩

/-- C9: when the mapping completes with an error, the render call reports the
readback fault and returns with the fault surfaced (totally, no panic); the
fault is per-call — a subsequent call whose mapping succeeds repacks its
texture into the buffer as usual. -/
theorem gpuReadback_error_recoverable (buffer view view2 : List ℕ)
    (e : BufferAsyncError) :
    (gpuReadback buffer view (Except.error e)).2 = some e ∧
    gpuReadback (gpuReadback buffer view (Except.error e)).1 view2 (Except.ok ())
      = (repack_rgba buffer view2, none) :=
  ⟨rfl, rfl⟩

/-- C10: on a mapping error the destination pixel buffer is left entirely
unchanged — every write to it happens only in the successful-mapping branch,
so the failed render call is atomic with respect to the buffer (stronger
than the spec's "undefined partial state"). -/
theorem gpuReadback_error_buffer_unchanged (buffer view : List ℕ)
    (e : BufferAsyncError) :
    (gpuReadback buffer view (Except.error e)).1 = buffer := rfl

end Mandelbrot
